import Mathlib

/-!
Verification of the backtesting engine and its analytics layer.

The development shallowly embeds `src/backtesting/backtest_engine.py`
(class `BacktestEngine`) and `src/backtesting/advanced_analytics.py`
(class `AdvancedAnalytics`) into Lean.  Money amounts, prices and
quantities are modelled as rationals (`ℚ`), timestamps as integers
(`ℤ`, a day number, so that a pandas timedelta's `.days` is plain
integer subtraction).  A Python call that can raise an exception is
modelled with `Option`: `none` is the raised exception.
-/

namespace AlgoBot

/-- One OHLCV bar.  Only the two fields that `run_backtest` reads are
modelled: `row['open_time']` and `row['close']`. -/
structure Bar where
  open_time : ℤ
  close : ℚ
deriving Repr, DecidableEq

/-- One entry of `BacktestEngine.trades`.  Python uses dicts with
different keys for BUY and SELL, so the model is a two-constructor
inductive carrying exactly the recorded fields. -/
inductive Trade where
  | buyT (timestamp : ℤ) (price quantity cost balance : ℚ)
  | sellT (timestamp : ℤ) (price quantity revenue profit profit_pct balance : ℚ)
deriving Repr, DecidableEq

/-- Whether a ledger entry is a SELL trade (`t['type'] == 'SELL'`). -/
def Trade.isSell : Trade → Bool
  | .buyT .. => false
  | .sellT .. => true

/-- The `price` key, present on both BUY and SELL dicts. -/
def Trade.price : Trade → ℚ
  | .buyT _ p .. => p
  | .sellT _ p .. => p

/-- The `profit` key of a SELL dict (0 for a BUY, which has none;
`get_performance_metrics` only reads it from SELL entries). -/
def Trade.profit : Trade → ℚ
  | .buyT .. => 0
  | .sellT _ _ _ _ pr _ _ => pr

/-- The `profit_pct` key of a SELL dict. -/
def Trade.profit_pct : Trade → ℚ
  | .buyT .. => 0
  | .sellT _ _ _ _ _ pp _ => pp

/-- One entry of `BacktestEngine.equity_curve`:
`{'timestamp': ..., 'portfolio_value': ..., 'price': ...}`. -/
structure EquityPoint where
  timestamp : ℤ
  portfolio_value : ℚ
  price : ℚ
deriving Repr, DecidableEq

/-- The mutable state of `BacktestEngine` (its `__init__` fields). -/
structure BacktestEngine where
  initial_balance : ℚ
  balance : ℚ
  commission : ℚ
  position : ℚ
  entry_price : ℚ
  trades : List Trade
  equity_curve : List EquityPoint
deriving Repr, DecidableEq

/-- `BacktestEngine.__init__`.  The constructor performs no validation
whatsoever: any balance and any commission are accepted as-is. -/
def initEngine (initial_balance commission : ℚ) : BacktestEngine :=
  { initial_balance := initial_balance
    balance := initial_balance
    commission := commission
    position := 0
    entry_price := 0
    trades := []
    equity_curve := [] }

/-- `BacktestEngine.buy`.  Debits `cost = quantity * price * (1 + commission)`
when `cost <= balance`, appends a BUY trade and returns `True`;
otherwise leaves the engine unchanged and returns `False`. -/
def buy (e : BacktestEngine) (price quantity : ℚ) (timestamp : ℤ) :
    BacktestEngine × Bool :=
  let cost := quantity * price * (1 + e.commission)
  if cost ≤ e.balance then
    ({ e with
        balance := e.balance - cost
        position := e.position + quantity
        entry_price := price
        trades := e.trades ++
          [Trade.buyT timestamp price quantity cost (e.balance - cost)] },
      true)
  else (e, false)

/-- `BacktestEngine.sell`.  When `quantity <= position` it credits
`revenue = quantity * price * (1 - commission)` and records realized
profit; the line `profit_pct = ((price - entry_price) / entry_price) * 100`
raises `ZeroDivisionError` when `entry_price = 0`, modelled as `none`. -/
def sell (e : BacktestEngine) (price quantity : ℚ) (timestamp : ℤ) :
    Option (BacktestEngine × Bool) :=
  if quantity ≤ e.position then
    let revenue := quantity * price * (1 - e.commission)
    if e.entry_price = 0 then none
    else
      let profit := (price - e.entry_price) * quantity
      let profit_pct := (price - e.entry_price) / e.entry_price * 100
      some
        ({ e with
            balance := e.balance + revenue
            position := e.position - quantity
            trades := e.trades ++
              [Trade.sellT timestamp price quantity revenue profit profit_pct
                (e.balance + revenue)] },
          true)
  else some (e, false)

/-- `BacktestEngine.get_portfolio_value`. -/
def get_portfolio_value (e : BacktestEngine) (current_price : ℚ) : ℚ :=
  e.balance + e.position * current_price

/-- The equity-curve append performed at the end of every loop
iteration of `run_backtest`. -/
def recordEquity (e : BacktestEngine) (price : ℚ) (timestamp : ℤ) :
    BacktestEngine :=
  { e with equity_curve := e.equity_curve ++
      [{ timestamp := timestamp
         portfolio_value := get_portfolio_value e price
         price := price }] }

/-- One iteration of the `run_backtest` loop: dispatch on the signal
(`1` buys 95% of balance when flat, `-1` sells the whole position when
long, anything else holds), then append the equity point computed from
the post-transition state.  `none` propagates a `ZeroDivisionError`
raised inside `sell`. -/
def runStep (e : BacktestEngine) (b : Bar) (signal : ℤ) :
    Option BacktestEngine :=
  let current_price := b.close
  if signal = 1 ∧ e.position = 0 then
    let quantity := e.balance / current_price * (0.95 : ℚ)
    let e1 := (buy e current_price quantity b.open_time).1
    some (recordEquity e1 current_price b.open_time)
  else if signal = -1 ∧ 0 < e.position then
    match sell e current_price e.position b.open_time with
    | none => none
    | some p => some (recordEquity p.1 current_price b.open_time)
  else some (recordEquity e current_price b.open_time)

/-- `BacktestEngine.run_backtest`.  The strategy function is applied to
the fixed dataframe and the running index, so over a fixed input it is
a fixed per-bar signal sequence; the embedding therefore takes the bars
already zipped with their signals. -/
def run_backtest (e : BacktestEngine) : List (Bar × ℤ) → Option BacktestEngine
  | [] => some e
  | (b, s) :: rest =>
    match runStep e b s with
    | none => none
    | some e1 => run_backtest e1 rest

/-- Arithmetic mean of a list (`np.mean`). -/
def listMean (l : List ℚ) : ℚ := l.sum / l.length

/-- Minimum of a nonempty list (`Series.min`); 0 on `[]`. -/
def listMin : List ℚ → ℚ
  | [] => 0
  | x :: xs => xs.foldl min x

/-- Maximum of a nonempty list (`Series.max`); 0 on `[]`. -/
def listMax : List ℚ → ℚ
  | [] => 0
  | x :: xs => xs.foldl max x

/-- The record returned by `get_performance_metrics` when trades exist. -/
structure Metrics where
  total_trades : ℕ
  winning_trades : ℕ
  losing_trades : ℕ
  win_rate : ℚ
  total_return : ℚ
  total_return_pct : ℚ
  avg_profit : ℚ
  avg_profit_pct : ℚ
  max_profit : ℚ
  max_loss : ℚ
  final_balance : ℚ
  final_position : ℚ
deriving Repr, DecidableEq

/-- `BacktestEngine.get_performance_metrics`.  The two `{"error": ...}`
returns (no trades at all / no SELL trades) are modelled as `none`. -/
def get_performance_metrics (e : BacktestEngine) : Option Metrics :=
  if e.trades = [] then none
  else
    let sell_trades := e.trades.filter Trade.isSell
    if sell_trades = [] then none
    else
      let profits := sell_trades.map Trade.profit
      let profit_pcts := sell_trades.map Trade.profit_pct
      let win_trades := profits.filter (fun p => 0 < p)
      let lose_trades := profits.filter (fun p => p < 0)
      some
        { total_trades := sell_trades.length
          winning_trades := win_trades.length
          losing_trades := lose_trades.length
          win_rate := (win_trades.length : ℚ) / sell_trades.length * 100
          total_return := profits.sum
          total_return_pct :=
            (get_portfolio_value e ((e.trades.getLast?.map Trade.price).getD 0)
              - e.initial_balance) / e.initial_balance * 100
          avg_profit := listMean profits
          avg_profit_pct := listMean profit_pcts
          max_profit := listMax profits
          max_loss := listMin profits
          final_balance := e.balance
          final_position := e.position }

/-- Index of the first occurrence of the minimum of a series
(`Series.idxmin`; pandas returns the first occurrence). -/
def idxmin (l : List ℚ) : ℕ := l.findIdx (fun a => decide (a ≤ listMin l))

/-- Index of the first occurrence of the maximum of a series
(`Series.idxmax`; pandas returns the first occurrence). -/
def idxmax (l : List ℚ) : ℕ := l.findIdx (fun a => decide (listMax l ≤ a))

/-- Helper for `runningMax`: running maxima of the tail, seeded with the
maximum seen so far. -/
def runningMaxAux (m : ℚ) : List ℚ → List ℚ
  | [] => []
  | x :: xs => max m x :: runningMaxAux (max m x) xs

/-- `Series.expanding().max()`: the running maximum. -/
def runningMax : List ℚ → List ℚ
  | [] => []
  | x :: xs => x :: runningMaxAux x xs

instance : Inhabited EquityPoint := ⟨⟨0, 0, 0⟩⟩

/-- The `portfolio_value` column of `equity_df`. -/
def valuesOf (eq : List EquityPoint) : List ℚ :=
  eq.map EquityPoint.portfolio_value

/-- The timestamp at row `i` of `equity_df` (`equity_df.loc[i, 'timestamp']`;
all lookups the code performs are in range). -/
def tsAt (eq : List EquityPoint) (i : ℕ) : ℤ := (eq.getD i default).timestamp

/-- The `peak` series of `calculate_max_drawdown` / `drawdown_analysis`. -/
def peakOf (eq : List EquityPoint) : List ℚ := runningMax (valuesOf eq)

/-- The fractional drawdown series `(portfolio_values - peak) / peak`
of `calculate_max_drawdown`. -/
def ddOf (eq : List EquityPoint) : List ℚ :=
  List.zipWith (fun v p => (v - p) / p) (valuesOf eq) (peakOf eq)

/-- `AdvancedAnalytics.calculate_max_drawdown`.  Returns
`(max_dd, max_dd_pct, start_date, end_date)`.  `peak[:max_dd_idx]` is a
positional pandas slice that excludes the trough row; when it is empty
(the drawdown minimum is first attained at row 0) `idxmax` raises
`ValueError`, modelled as `none`. -/
def calculate_max_drawdown (eq : List EquityPoint) :
    Option (ℚ × ℚ × Option ℤ × Option ℤ) :=
  if eq = [] then some (0, 0, none, none)
  else
    let drawdown := ddOf eq
    let max_dd := listMin drawdown
    let max_dd_idx := idxmin drawdown
    let pre := (peakOf eq).take max_dd_idx
    if pre = [] then none
    else
      let peak_idx := idxmax pre
      some (max_dd, max_dd * 100, some (tsAt eq peak_idx),
        some (tsAt eq max_dd_idx))

/-- The trough of the drawdown series (`drawdown.idxmin()`). -/
def troughIdx (eq : List EquityPoint) : ℕ := idxmin (ddOf eq)

/-- The earliest index, at or before the trough, attaining the maximum
running-peak value (earliest tie-break). -/
def specStartEarliest (eq : List EquityPoint) : ℕ :=
  idxmax ((peakOf eq).take (troughIdx eq + 1))

/-- Index of the last occurrence of the maximum of a series. -/
def idxmaxLast (l : List ℚ) : ℕ :=
  l.length - 1 - l.reverse.findIdx (fun a => decide (listMax l ≤ a))

/-- The latest index, at or before the trough, attaining the maximum
running-peak value (the tie-break the specification asserts). -/
def specStartLatest (eq : List EquityPoint) : ℕ :=
  idxmaxLast ((peakOf eq).take (troughIdx eq + 1))

/-- The latest index strictly before the trough attaining the maximum
running-peak value there (alternative reading of the same tie-break). -/
def specStartLatestBefore (eq : List EquityPoint) : ℕ :=
  idxmaxLast ((peakOf eq).take (troughIdx eq))

/-- `Series.pct_change()` followed by `.dropna()`:
`returns[i] = (v[i+1] - v[i]) / v[i]`.  pandas leaves `NaN` only at the
first row for the strictly positive portfolio values the engine
produces; the model assumes that domain (a zero previous value would
give `inf`/`NaN` in pandas). -/
def pctReturns (values : List ℚ) : List ℚ :=
  List.zipWith (fun prev next => (next - prev) / prev) values values.tail

/-- Sample variance with `ddof = 1` (the square of `Series.std()`);
only meaningful for two or more samples. -/
def sampleVariance (l : List ℚ) : ℚ :=
  if l.length ≤ 1 then 0
  else (l.map (fun x => (x - listMean l) ^ 2)).sum / ((l.length : ℚ) - 1)

/-- Result of the Sharpe/Sortino computation.  `Series.std()` (ddof = 1)
is `NaN` iff there are fewer than 2 samples and equals 0 iff the sample
variance is 0; since the non-degenerate value `mean/std*sqrt(252)`
is irrational, it is represented by its rational data: `ratio m v`
stands for `m / sqrt v * sqrt 252`, and `nan` is the float `NaN`
obtained by dividing by a `NaN` standard deviation. -/
inductive StatResult where
  | zero
  | nan
  | ratio (meanExcess : ℚ) (variance : ℚ)
deriving Repr, DecidableEq

/-- `AdvancedAnalytics.calculate_sharpe_ratio`. -/
def calculate_sharpe_ratio (eq : List EquityPoint) (risk_free_rate : ℚ) :
    StatResult :=
  if eq.length < 2 then .zero
  else
    let returns := pctReturns (valuesOf eq)
    if returns = [] then .zero
    else
      let excess := returns.map (fun r => r - risk_free_rate / 252)
      if 2 ≤ excess.length ∧ sampleVariance excess = 0 then .zero
      else if excess.length < 2 then .nan
      else .ratio (listMean excess) (sampleVariance excess)

/-- `AdvancedAnalytics.calculate_sortino_ratio`. -/
def calculate_sortino_ratio (eq : List EquityPoint) (risk_free_rate : ℚ) :
    StatResult :=
  if eq.length < 2 then .zero
  else
    let returns := pctReturns (valuesOf eq)
    if returns = [] then .zero
    else
      let excess := returns.map (fun r => r - risk_free_rate / 252)
      let downside := excess.filter (fun r => r < 0)
      if downside = [] ∨ (2 ≤ downside.length ∧ sampleVariance downside = 0)
      then .zero
      else if downside.length < 2 then .nan
      else .ratio (listMean excess) (sampleVariance downside)

/-- The percent drawdown series `(portfolio_values - peak) / peak * 100`
of `drawdown_analysis`. -/
def ddPctOf (eq : List EquityPoint) : List ℚ :=
  List.zipWith (fun v p => (v - p) / p * 100) (valuesOf eq) (peakOf eq)

/-- `in_drawdown = drawdown < -0.1` (more than 0.1% drawdown). -/
def inDrawdown (eq : List EquityPoint) : List Bool :=
  (ddPctOf eq).map (fun d => decide (d < -(1 / 10)))

/-- One row of the dataframe returned by `drawdown_analysis`. -/
structure Episode where
  start_date : ℤ
  end_date : ℤ
  duration_days : ℤ
  max_drawdown_pct : ℚ
  recovery_date : ℤ
deriving Repr, DecidableEq

/-- The dict appended by `drawdown_analysis` when a run closes, built
from the `(start_idx, end_idx)` pair; timestamps are day numbers so the
timedelta's `.days` is integer subtraction, and
`drawdown.iloc[start_idx:end_idx+1].min()` is the minimum of the
corresponding slice. -/
def mkEpisode (eq : List EquityPoint) (run : ℕ × ℕ) : Episode :=
  { start_date := tsAt eq run.1
    end_date := tsAt eq run.2
    duration_days := tsAt eq run.2 - tsAt eq run.1
    max_drawdown_pct := listMin (((ddPctOf eq).drop run.1).take (run.2 - run.1 + 1))
    recovery_date := tsAt eq run.2 }

/-- The `for i, is_dd in enumerate(in_drawdown)` loop of
`drawdown_analysis`: `i` is the loop counter, the second argument is
the `start_idx` variable; a pair `(start_idx, i - 1)` is emitted each
time a run closes.  A run still open when the loop ends emits
nothing. -/
def ddScanAux (i : ℕ) (start_idx : Option ℕ) : List Bool → List (ℕ × ℕ)
  | [] => []
  | b :: rest =>
    match start_idx with
    | none =>
      if b then ddScanAux (i + 1) (some i) rest
      else ddScanAux (i + 1) none rest
    | some s =>
      if b then ddScanAux (i + 1) (some s) rest
      else (s, i - 1) :: ddScanAux (i + 1) none rest

/-- `AdvancedAnalytics.drawdown_analysis`: the list of closed drawdown
episodes, in scan order.  (The Python loop builds each dict at the
moment the run closes; mapping `mkEpisode` over the emitted index pairs
appends the same dicts in the same order.) -/
def drawdown_analysis (eq : List EquityPoint) : List Episode :=
  (ddScanAux 0 none (inDrawdown eq)).map (mkEpisode eq)

/-- The closed runs of `true` in a boolean series, as the claim words
them: a maximal block of consecutive `true` bars starting at absolute
index `i` and of length `k + 1` is emitted as `(i, i + k)` exactly when
it is followed by a `false` bar; a block that reaches the end of the
series is dropped. -/
def closedRunsAux (i : ℕ) : List Bool → List (ℕ × ℕ)
  | [] => []
  | false :: rest => closedRunsAux (i + 1) rest
  | true :: rest =>
    let k := (rest.takeWhile (fun x => x)).length
    if rest.drop k = [] then []
    else (i, i + k) :: closedRunsAux (i + k + 1) (rest.drop k)
termination_by l => l.length
decreasing_by
  all_goals simp_wf
  all_goals omega

/-- The invariant the engine state keeps along any run over bars with
positive closes: no shorting, no negative cash, and an open position
implies a positive entry price and a commission small enough that the
95%-sizing buy that opened it passed the `cost <= balance` guard. -/
def goodState (e : BacktestEngine) : Prop :=
  0 ≤ e.balance ∧ 0 ≤ e.position ∧
    (0 < e.position → 0 < e.entry_price ∧ (19 / 20) * (1 + e.commission) ≤ 1)

/-- The coupling between two runs of the same bar/signal sequence that
differ only in commission (`e1` the cheaper engine): the expensive run
never has more cash, and either the two state machines agree on whether
a position is open (with the expensive one holding no more units), or
the expensive run has been absorbed into the zero-cash, zero-position
state. -/
def pairInv (e1 e2 : BacktestEngine) : Prop :=
  goodState e1 ∧ goodState e2 ∧
  0 ≤ e1.commission ∧ e1.commission ≤ e2.commission ∧
  (19 / 20) * (1 + e2.commission) ≤ 1 ∧
  e2.balance ≤ e1.balance ∧
  ((e2.position = 0 ↔ e1.position = 0) ∧ e2.position ≤ e1.position
    ∨ e2.balance = 0 ∧ e2.position = 0)

lemma point95 : (0.95 : ℚ) = 19 / 20 := by norm_num

@[simp] lemma recordEquity_balance (e : BacktestEngine) (p : ℚ) (t : ℤ) :
    (recordEquity e p t).balance = e.balance := rfl

@[simp] lemma recordEquity_position (e : BacktestEngine) (p : ℚ) (t : ℤ) :
    (recordEquity e p t).position = e.position := rfl

@[simp] lemma recordEquity_entry (e : BacktestEngine) (p : ℚ) (t : ℤ) :
    (recordEquity e p t).entry_price = e.entry_price := rfl

@[simp] lemma recordEquity_commission (e : BacktestEngine) (p : ℚ) (t : ℤ) :
    (recordEquity e p t).commission = e.commission := rfl

@[simp] lemma recordEquity_initial (e : BacktestEngine) (p : ℚ) (t : ℤ) :
    (recordEquity e p t).initial_balance = e.initial_balance := rfl

lemma buy_commission (e : BacktestEngine) (price q : ℚ) (t : ℤ) :
    ((buy e price q t).1).commission = e.commission := by
  simp only [buy]; split_ifs <;> rfl

lemma buy_initial (e : BacktestEngine) (price q : ℚ) (t : ℤ) :
    ((buy e price q t).1).initial_balance = e.initial_balance := by
  simp only [buy]; split_ifs <;> rfl

lemma buy_equity (e : BacktestEngine) (price q : ℚ) (t : ℤ) :
    ((buy e price q t).1).equity_curve = e.equity_curve := by
  simp only [buy]; split_ifs <;> rfl

lemma buy_exec (e : BacktestEngine) (price q : ℚ) (t : ℤ)
    (h : q * price * (1 + e.commission) ≤ e.balance) :
    ((buy e price q t).1).balance = e.balance - q * price * (1 + e.commission) ∧
    ((buy e price q t).1).position = e.position + q ∧
    ((buy e price q t).1).entry_price = price := by
  simp only [buy]; rw [if_pos h]; exact ⟨rfl, rfl, rfl⟩

lemma buy_skip (e : BacktestEngine) (price q : ℚ) (t : ℤ)
    (h : ¬ q * price * (1 + e.commission) ≤ e.balance) :
    (buy e price q t).1 = e := by
  simp only [buy]; rw [if_neg h]

/-- With a nonnegative balance, a positive price and a commission small
enough that `0.95 * (1 + c) <= 1`, the cost of the 95%-sizing order
never exceeds the balance, so the buy always executes. -/
lemma buy_guard (bal c close : ℚ) (hb : 0 ≤ bal) (hcl : 0 < close)
    (hcv : (19 / 20) * (1 + c) ≤ 1) :
    bal / close * 0.95 * close * (1 + c) ≤ bal := by
  have h1 : bal / close * 0.95 * close * (1 + c) =
      bal * ((19 / 20) * (1 + c)) := by
    rw [point95]; field_simp; ring
  rw [h1]
  calc bal * ((19 / 20) * (1 + c)) ≤ bal * 1 :=
        mul_le_mul_of_nonneg_left hcv hb
    _ = bal := mul_one _

lemma sell_exec (e : BacktestEngine) (price : ℚ) (t : ℤ)
    (hq : e.entry_price ≠ 0) :
    ∃ f, sell e price e.position t = some (f, true) ∧
      f.balance = e.balance + e.position * price * (1 - e.commission) ∧
      f.position = 0 ∧
      f.entry_price = e.entry_price ∧
      f.commission = e.commission ∧
      f.initial_balance = e.initial_balance ∧
      f.equity_curve = e.equity_curve := by
  simp only [sell, le_refl, if_true, if_neg hq]
  exact ⟨_, rfl, rfl, sub_self _, rfl, rfl, rfl, rfl⟩

lemma sell_equity_inv (e : BacktestEngine) (price q : ℚ) (t : ℤ)
    (p : BacktestEngine × Bool) (h : sell e price q t = some p) :
    p.1.equity_curve = e.equity_curve := by
  simp only [sell] at h
  by_cases h1 : q ≤ e.position
  · rw [if_pos h1] at h
    by_cases h2 : e.entry_price = 0
    · rw [if_pos h2] at h; exact absurd h (by simp)
    · rw [if_neg h2] at h; obtain rfl := Option.some.inj h; rfl
  · rw [if_neg h1] at h; obtain rfl := Option.some.inj h; rfl

/-- One loop iteration always succeeds from a good state over a bar
with positive close, preserves goodness, commission and initial
balance, and appends exactly one equity point valued with the
post-transition state. -/
theorem runStep_good (e : BacktestEngine) (b : Bar) (s : ℤ)
    (hg : goodState e) (hp : 0 < b.close) :
    ∃ f, runStep e b s = some f ∧ goodState f ∧
      f.commission = e.commission ∧ f.initial_balance = e.initial_balance ∧
      f.equity_curve = e.equity_curve ++
        [⟨b.open_time, f.balance + f.position * b.close, b.close⟩] := by
  obtain ⟨hb, hpos, hlong⟩ := hg
  by_cases h1 : s = 1 ∧ e.position = 0
  · by_cases hc : e.balance / b.close * 0.95 * b.close * (1 + e.commission) ≤
        e.balance
    · obtain ⟨hbal, hpos2, hent⟩ :=
        buy_exec e b.close (e.balance / b.close * 0.95) b.open_time hc
      refine ⟨recordEquity ((buy e b.close (e.balance / b.close * 0.95)
          b.open_time).1) b.close b.open_time,
        by simp only [runStep, if_pos h1], ?_, ?_, ?_, ?_⟩
      · unfold goodState
        refine ⟨?_, ?_, ?_⟩
        · simp only [recordEquity_balance, hbal]; linarith
        · simp only [recordEquity_position, hpos2, h1.2, zero_add]
          exact mul_nonneg (div_nonneg hb hp.le) (by norm_num)
        · intro hfp
          simp only [recordEquity_position, hpos2, h1.2, zero_add] at hfp
          have hbalpos : 0 < e.balance := by
            by_contra hb0
            have hz : e.balance = 0 := le_antisymm (not_lt.mp hb0) hb
            rw [hz] at hfp; simp at hfp
          have hcost : e.balance / b.close * 0.95 * b.close *
              (1 + e.commission) =
              e.balance * ((19 / 20) * (1 + e.commission)) := by
            rw [point95]; field_simp; ring
          rw [hcost] at hc
          have hcv : (19 / 20) * (1 + e.commission) ≤ 1 :=
            le_of_mul_le_mul_left (by linarith) hbalpos
          constructor
          · simp only [recordEquity_entry, hent]; exact hp
          · simp only [recordEquity_commission, buy_commission]; exact hcv
      · simp [buy_commission]
      · simp [buy_initial]
      · simp [recordEquity, get_portfolio_value, buy_equity]
    · have hskip := buy_skip e b.close (e.balance / b.close * 0.95) b.open_time hc
      refine ⟨recordEquity ((buy e b.close (e.balance / b.close * 0.95)
          b.open_time).1) b.close b.open_time,
        by simp only [runStep, if_pos h1], ?_, ?_, ?_, ?_⟩
      · unfold goodState
        rw [hskip]
        exact ⟨by simpa using hb, by simpa using hpos,
          fun h => by simpa using hlong (by simpa using h)⟩
      · simp [hskip]
      · simp [hskip]
      · simp [hskip, recordEquity, get_portfolio_value]
  · by_cases h2 : s = -1 ∧ 0 < e.position
    · obtain ⟨hent, hcv⟩ := hlong h2.2
      obtain ⟨g, hsell, hgb, hgp, hge, hgc, hgi, hgeq⟩ :=
        sell_exec e b.close b.open_time hent.ne'
      have hstep : runStep e b s =
          some (recordEquity g b.close b.open_time) := by
        simp only [runStep, if_neg h1, if_pos h2, hsell]
      refine ⟨recordEquity g b.close b.open_time, hstep, ?_, ?_, ?_, ?_⟩
      · unfold goodState
        refine ⟨?_, ?_, ?_⟩
        · have h1c : (0 : ℚ) ≤ 1 - e.commission := by linarith
          have hrev : 0 ≤ e.position * b.close * (1 - e.commission) :=
            mul_nonneg (mul_nonneg hpos hp.le) h1c
          simp only [recordEquity_balance, hgb]; linarith
        · simp [hgp]
        · intro hfp; simp [hgp] at hfp
      · simp [hgc]
      · simp [hgi]
      · simp [recordEquity, get_portfolio_value, hgeq]
    · refine ⟨recordEquity e b.close b.open_time,
        by simp only [runStep, if_neg h1, if_neg h2], ?_, ?_, ?_, ?_⟩
      · unfold goodState
        exact ⟨by simpa using hb, by simpa using hpos,
          fun h => by simpa using hlong (by simpa using h)⟩
      · simp
      · simp
      · simp [recordEquity, get_portfolio_value]

/-- Whatever branch is taken, a successful loop iteration appends
exactly the equity point valued with the post-transition state. -/
theorem runStep_equity (e f : BacktestEngine) (b : Bar) (s : ℤ)
    (h : runStep e b s = some f) :
    f.equity_curve = e.equity_curve ++
      [⟨b.open_time, f.balance + f.position * b.close, b.close⟩] := by
  simp only [runStep] at h
  by_cases h1 : s = 1 ∧ e.position = 0
  · rw [if_pos h1] at h
    obtain rfl := Option.some.inj h
    simp [recordEquity, get_portfolio_value, buy_equity]
  · rw [if_neg h1] at h
    by_cases h2 : s = -1 ∧ 0 < e.position
    · rw [if_pos h2] at h
      cases hs : sell e b.close e.position b.open_time with
      | none => rw [hs] at h; exact absurd h (by simp)
      | some p =>
        rw [hs] at h
        obtain rfl := Option.some.inj h
        simp [recordEquity, get_portfolio_value, sell_equity_inv _ _ _ _ _ hs]
    · rw [if_neg h2] at h
      obtain rfl := Option.some.inj h
      simp [recordEquity, get_portfolio_value]

/-- A run from a good state over positive closes succeeds, ends in a
good state, and preserves commission and initial balance. -/
theorem run_backtest_good : ∀ (bars : List (Bar × ℤ)) (e : BacktestEngine),
    goodState e → (∀ p ∈ bars, 0 < p.1.close) →
    ∃ f, run_backtest e bars = some f ∧ goodState f ∧
      f.commission = e.commission ∧ f.initial_balance = e.initial_balance := by
  intro bars
  induction bars with
  | nil => intro e hg _; exact ⟨e, rfl, hg, rfl, rfl⟩
  | cons p rest ih =>
    intro e hg hp
    obtain ⟨b, s⟩ := p
    obtain ⟨f1, hstep, hgf1, hc, hi, _⟩ :=
      runStep_good e b s hg (hp (b, s) (by simp))
    obtain ⟨f, hrun, hgf, hc2, hi2⟩ :=
      ih f1 hgf1 (fun q hq => hp q (by simp [hq]))
    refine ⟨f, ?_, hgf, hc2.trans hc, hi2.trans hi⟩
    simp only [run_backtest, hstep]
    exact hrun

/-- Running over a concatenation is running over the pieces in order. -/
theorem run_backtest_append (l1 l2 : List (Bar × ℤ)) :
    ∀ e : BacktestEngine, run_backtest e (l1 ++ l2) =
      (run_backtest e l1).bind fun f => run_backtest f l2 := by
  induction l1 with
  | nil => intro e; simp [run_backtest]
  | cons p rest ih =>
    intro e
    obtain ⟨b, s⟩ := p
    simp only [List.cons_append, run_backtest]
    cases hstep : runStep e b s with
    | none => simp
    | some f => simpa using ih f

/-- A successful run appends one equity point per processed bar. -/
theorem run_backtest_equity_extends : ∀ (bars : List (Bar × ℤ))
    (e f : BacktestEngine), run_backtest e bars = some f →
    ∃ t, f.equity_curve = e.equity_curve ++ t ∧ t.length = bars.length := by
  intro bars
  induction bars with
  | nil =>
    intro e f h
    simp only [run_backtest] at h
    obtain rfl := Option.some.inj h
    exact ⟨[], by simp, rfl⟩
  | cons p rest ih =>
    intro e f h
    obtain ⟨b, s⟩ := p
    simp only [run_backtest] at h
    cases hstep : runStep e b s with
    | none => rw [hstep] at h; exact absurd h (by simp)
    | some e1 =>
      rw [hstep] at h
      obtain ⟨t, ht, hlen⟩ := ih e1 f h
      refine ⟨⟨b.open_time, e1.balance + e1.position * b.close, b.close⟩ :: t,
        ?_, by simp [hlen]⟩
      rw [ht, runStep_equity e e1 b s hstep]
      simp

/-- The last equity point of a successful run over a nonempty series is
valued with the final state and the last bar's close. -/
theorem run_backtest_last : ∀ (bars : List (Bar × ℤ)) (e f : BacktestEngine)
    (bl : Bar × ℤ), bars.getLast? = some bl → run_backtest e bars = some f →
    f.equity_curve.getLast? =
      some ⟨bl.1.open_time, f.balance + f.position * bl.1.close, bl.1.close⟩ := by
  intro bars
  induction bars with
  | nil => intro e f bl h; simp at h
  | cons p rest ih =>
    intro e f bl hlast hrun
    obtain ⟨b, s⟩ := p
    simp only [run_backtest] at hrun
    cases hstep : runStep e b s with
    | none => rw [hstep] at hrun; exact absurd hrun (by simp)
    | some e1 =>
      rw [hstep] at hrun
      cases rest with
      | nil =>
        simp only [run_backtest] at hrun
        obtain rfl := Option.some.inj hrun
        have hbl : bl = (b, s) := by simpa using hlast.symm
        subst hbl
        rw [runStep_equity e e1 b s hstep, List.getLast?_concat]
      | cons q rest2 =>
        have hlast2 : (q :: rest2).getLast? = some bl := by
          rw [← hlast, List.getLast?_cons_cons]
        exact ih e1 f bl hlast2 hrun

lemma goodState_init (b0 c : ℚ) (hb0 : 0 ≤ b0) :
    goodState (initEngine b0 c) := by
  unfold goodState
  exact ⟨by simpa [initEngine] using hb0, by simp [initEngine],
    by simp [initEngine]⟩

/-- C1: over any bar series with positive closes, the run succeeds and
(i) the last equity point's `portfolio_value` is exactly
`final balance + final position * last close`, and (ii) the `i`-th
equity point's `portfolio_value` is `balance + position * close_i` of
the engine state right after bar `i`'s transition (the state reached by
running the length-`i+1` prefix). -/
theorem c1_conservation (b0 c : ℚ) (bars : List (Bar × ℤ))
    (hb0 : 0 ≤ b0) (hp : ∀ p ∈ bars, 0 < p.1.close) :
    ∃ f, run_backtest (initEngine b0 c) bars = some f ∧
      (∀ bl ∈ bars.getLast?, f.equity_curve.getLast? =
        some ⟨bl.1.open_time, f.balance + f.position * bl.1.close,
          bl.1.close⟩) ∧
      (∀ i, ∀ hi : i < bars.length,
        ∃ fi, run_backtest (initEngine b0 c) (bars.take (i + 1)) = some fi ∧
          f.equity_curve.get? i = some ⟨(bars.get ⟨i, hi⟩).1.open_time,
            fi.balance + fi.position * (bars.get ⟨i, hi⟩).1.close,
            (bars.get ⟨i, hi⟩).1.close⟩) := by
  obtain ⟨f, hrun, hgf, _, _⟩ :=
    run_backtest_good bars (initEngine b0 c) (goodState_init b0 c hb0) hp
  refine ⟨f, hrun, ?_, ?_⟩
  · intro bl hbl
    exact run_backtest_last bars _ f bl (Option.mem_def.mp hbl) hrun
  · intro i hi
    have hrun2 := hrun
    rw [← List.take_append_drop (i + 1) bars,
      run_backtest_append (bars.take (i + 1)) (bars.drop (i + 1))] at hrun2
    cases hpre : run_backtest (initEngine b0 c) (bars.take (i + 1)) with
    | none => rw [hpre] at hrun2; exact absurd hrun2 (by simp)
    | some fi =>
      rw [hpre] at hrun2
      simp only [Option.some_bind] at hrun2
      refine ⟨fi, rfl, ?_⟩
      obtain ⟨t, ht, hlen⟩ := run_backtest_equity_extends _ _ _ hpre
      have hilen : (bars.take (i + 1)).length = i + 1 := by
        rw [List.length_take]; omega
      have hfilen : fi.equity_curve.length = i + 1 := by
        rw [ht]
        simp only [initEngine, List.nil_append, hlen, hilen]
      have hlastpre : (bars.take (i + 1)).getLast? =
          some (bars.get ⟨i, hi⟩) := by
        rw [List.getLast?_eq_get?, hilen, Nat.add_sub_cancel,
          List.get?_take (Nat.lt_succ_self i), List.get?_eq_get hi]
      have hlast := run_backtest_last _ _ _ _ hlastpre hpre
      obtain ⟨t2, ht2, _⟩ := run_backtest_equity_extends _ _ _ hrun2
      rw [ht2, List.get?_append (by omega : i < fi.equity_curve.length)]
      rw [List.getLast?_eq_get?, hfilen, Nat.add_sub_cancel] at hlast
      exact hlast

/-- Witness for C1 at a concrete input: one bar at close 10, signal
Buy, from balance 100 and commission 0. -/
theorem c1_conservation_witness :
    ∃ f, run_backtest (initEngine 100 0) [(⟨0, 10⟩, 1)] = some f ∧
      (∀ bl ∈ ([(⟨0, 10⟩, 1)] : List (Bar × ℤ)).getLast?,
        f.equity_curve.getLast? =
        some ⟨bl.1.open_time, f.balance + f.position * bl.1.close,
          bl.1.close⟩) ∧
      (∀ i, ∀ hi : i < ([(⟨0, 10⟩, 1)] : List (Bar × ℤ)).length,
        ∃ fi, run_backtest (initEngine 100 0)
            (([(⟨0, 10⟩, 1)] : List (Bar × ℤ)).take (i + 1)) = some fi ∧
          f.equity_curve.get? i = some
            ⟨(([(⟨0, 10⟩, 1)] : List (Bar × ℤ)).get ⟨i, hi⟩).1.open_time,
            fi.balance + fi.position *
              (([(⟨0, 10⟩, 1)] : List (Bar × ℤ)).get ⟨i, hi⟩).1.close,
            (([(⟨0, 10⟩, 1)] : List (Bar × ℤ)).get ⟨i, hi⟩).1.close⟩) :=
  c1_conservation 100 0 [(⟨0, 10⟩, 1)] (by norm_num)
    (by intro p hp; fin_cases hp; norm_num)

/-- C5: from a positive initial balance over bars with positive closes,
after every per-bar transition (i.e. at the state reached by any prefix
of the run) the balance and the position are both nonnegative, for any
commission whatsoever. -/
theorem c5_no_shorting (b0 c : ℚ) (bars : List (Bar × ℤ)) (n : ℕ)
    (hb0 : 0 < b0) (hp : ∀ p ∈ bars, 0 < p.1.close) :
    ∃ f, run_backtest (initEngine b0 c) (bars.take n) = some f ∧
      0 ≤ f.balance ∧ 0 ≤ f.position := by
  obtain ⟨f, hrun, hgf, _, _⟩ :=
    run_backtest_good (bars.take n) (initEngine b0 c)
      (goodState_init b0 c hb0.le)
      (fun p hp2 => hp p (List.mem_of_mem_take hp2))
  exact ⟨f, hrun, hgf.1, hgf.2.1⟩

/-- Witness for C5 at a concrete input: a buy then a sell, with a
nonzero commission. -/
theorem c5_no_shorting_witness :
    ∃ f, run_backtest (initEngine 10000 (1 / 1000))
        (([(⟨0, 100⟩, 1), (⟨1, 90⟩, -1)] : List (Bar × ℤ)).take 2) = some f ∧
      0 ≤ f.balance ∧ 0 ≤ f.position :=
  c5_no_shorting 10000 (1 / 1000) [(⟨0, 100⟩, 1), (⟨1, 90⟩, -1)] 2
    (by norm_num) (by intro p hp; fin_cases hp <;> norm_num)

lemma cost_eq (bal c close : ℚ) (hcl : close ≠ 0) :
    bal / close * 0.95 * close * (1 + c) = bal * ((19 / 20) * (1 + c)) := by
  rw [point95]; field_simp; ring

lemma runStep_hold_inv (e f : BacktestEngine) (b : Bar) (s : ℤ)
    (hA : ¬(s = 1 ∧ e.position = 0)) (hS : ¬(s = -1 ∧ 0 < e.position))
    (hf : runStep e b s = some f) :
    f.balance = e.balance ∧ f.position = e.position := by
  simp only [runStep, if_neg hA, if_neg hS] at hf
  obtain rfl := Option.some.inj hf
  exact ⟨rfl, rfl⟩

lemma runStep_buy_inv (e f : BacktestEngine) (b : Bar) (s : ℤ)
    (hA : s = 1 ∧ e.position = 0)
    (hguard : e.balance / b.close * 0.95 * b.close * (1 + e.commission) ≤
      e.balance)
    (hf : runStep e b s = some f) :
    f.balance = e.balance -
      e.balance / b.close * 0.95 * b.close * (1 + e.commission) ∧
    f.position = e.position + e.balance / b.close * 0.95 := by
  obtain ⟨hBb, hBp, _⟩ :=
    buy_exec e b.close (e.balance / b.close * 0.95) b.open_time hguard
  simp only [runStep, if_pos hA] at hf
  obtain rfl := Option.some.inj hf
  exact ⟨by rw [recordEquity_balance, hBb], by rw [recordEquity_position, hBp]⟩

lemma runStep_sell_inv (e f : BacktestEngine) (b : Bar) (s : ℤ)
    (hA : ¬(s = 1 ∧ e.position = 0)) (hS : s = -1 ∧ 0 < e.position)
    (hent : e.entry_price ≠ 0)
    (hf : runStep e b s = some f) :
    f.balance = e.balance + e.position * b.close * (1 - e.commission) ∧
    f.position = 0 := by
  obtain ⟨g, hsell, hgb, hgp, _, _, _, _⟩ := sell_exec e b.close b.open_time hent
  simp only [runStep, if_neg hA, if_pos hS, hsell] at hf
  obtain rfl := Option.some.inj hf
  exact ⟨by rw [recordEquity_balance, hgb], by rw [recordEquity_position, hgp]⟩

/-- One synchronized loop iteration of the cheap and the expensive
engine preserves the commission coupling. -/
theorem runStep_pair (e1 e2 : BacktestEngine) (b : Bar) (s : ℤ)
    (hp : 0 < b.close) (hI : pairInv e1 e2) :
    ∃ f1 f2, runStep e1 b s = some f1 ∧ runStep e2 b s = some f2 ∧
      pairInv f1 f2 := by
  obtain ⟨hg1, hg2, hc1n, hc12, hc2v, hbal, hdisj⟩ := hI
  obtain ⟨hb1, hp1, hl1⟩ := hg1
  obtain ⟨hb2, hp2, hl2⟩ := hg2
  have hg1' : goodState e1 := ⟨hb1, hp1, hl1⟩
  have hg2' : goodState e2 := ⟨hb2, hp2, hl2⟩
  have hcv1 : (19 / 20) * (1 + e1.commission) ≤ 1 := by linarith
  have h1c2 : (0 : ℚ) ≤ 1 - e2.commission := by linarith
  have h1c1 : (0 : ℚ) ≤ 1 - e1.commission := by linarith
  obtain ⟨f1, hf1, hgf1, hcf1, hif1, heq1⟩ := runStep_good e1 b s hg1' hp
  obtain ⟨f2, hf2, hgf2, hcf2, hif2, heq2⟩ := runStep_good e2 b s hg2' hp
  have key : f2.balance ≤ f1.balance ∧
      ((f2.position = 0 ↔ f1.position = 0) ∧ f2.position ≤ f1.position ∨
        f2.balance = 0 ∧ f2.position = 0) := by
    by_cases hA1 : s = 1 ∧ e1.position = 0
    · have hs1 : s = 1 := hA1.1
      by_cases hA2 : s = 1 ∧ e2.position = 0
      · -- both engines buy
        have hgd1 : e1.balance / b.close * 0.95 * b.close *
            (1 + e1.commission) ≤ e1.balance := buy_guard _ _ _ hb1 hp hcv1
        have hgd2 : e2.balance / b.close * 0.95 * b.close *
            (1 + e2.commission) ≤ e2.balance := buy_guard _ _ _ hb2 hp hc2v
        obtain ⟨hfb1, hfp1⟩ := runStep_buy_inv e1 f1 b s hA1 hgd1 hf1
        obtain ⟨hfb2, hfp2⟩ := runStep_buy_inv e2 f2 b s hA2 hgd2 hf2
        rw [cost_eq _ _ _ hp.ne'] at hfb1 hfb2
        constructor
        · rw [hfb1, hfb2]
          have t1 : 0 ≤ (e1.balance - e2.balance) *
              (1 - 19 / 20 * (1 + e1.commission)) :=
            mul_nonneg (by linarith) (by linarith)
          have t2 : 0 ≤ 19 / 20 * e2.balance *
              (e2.commission - e1.commission) :=
            mul_nonneg (mul_nonneg (by norm_num) hb2) (by linarith)
          nlinarith [t1, t2]
        · by_cases hz : e2.balance = 0
          · right
            refine ⟨by rw [hfb2, hz]; ring, ?_⟩
            rw [hfp2, hA2.2, hz]; simp
          · left
            have hz2 : 0 < e2.balance := lt_of_le_of_ne hb2 (Ne.symm hz)
            have hz1 : 0 < e1.balance := lt_of_lt_of_le hz2 hbal
            have hq2 : 0 < e2.balance / b.close * 0.95 :=
              mul_pos (div_pos hz2 hp) (by norm_num)
            have hq1 : 0 < e1.balance / b.close * 0.95 :=
              mul_pos (div_pos hz1 hp) (by norm_num)
            constructor
            · constructor
              · intro h
                rw [hfp2, hA2.2, zero_add] at h
                exact absurd h (ne_of_gt hq2)
              · intro h
                rw [hfp1, hA1.2, zero_add] at h
                exact absurd h (ne_of_gt hq1)
            · rw [hfp1, hfp2, hA1.2, hA2.2, zero_add, zero_add]
              exact mul_le_mul_of_nonneg_right
                ((div_le_div_right hp).mpr hbal) (by norm_num)
      · -- the cheap engine buys but the expensive one is long: impossible
        have hp2pos : 0 < e2.position :=
          lt_of_le_of_ne hp2 (fun h => hA2 ⟨hs1, h.symm⟩)
        rcases hdisj with ⟨hiff, _⟩ | ⟨_, hz⟩
        · exact absurd (hiff.mpr hA1.2) (ne_of_gt hp2pos)
        · exact absurd hz (ne_of_gt hp2pos)
    · by_cases hA2 : s = 1 ∧ e2.position = 0
      · -- only the expensive (absorbed) engine buys, with zero cash
        have hs1 : s = 1 := hA2.1
        have hp1pos : 0 < e1.position :=
          lt_of_le_of_ne hp1 (fun h => hA1 ⟨hs1, h.symm⟩)
        have hB : e2.balance = 0 ∧ e2.position = 0 := by
          rcases hdisj with ⟨hiff, _⟩ | hB
          · exact absurd (hiff.mp hA2.2) (ne_of_gt hp1pos)
          · exact hB
        have hS1 : ¬(s = -1 ∧ 0 < e1.position) := by
          intro h; rw [hs1] at h; exact absurd h.1 (by norm_num)
        obtain ⟨hfb1, hfp1⟩ := runStep_hold_inv e1 f1 b s hA1 hS1 hf1
        have hgd2 : e2.balance / b.close * 0.95 * b.close *
            (1 + e2.commission) ≤ e2.balance := by
          rw [hB.1]; simp
        obtain ⟨hfb2, hfp2⟩ := runStep_buy_inv e2 f2 b s hA2 hgd2 hf2
        rw [cost_eq _ _ _ hp.ne'] at hfb2
        have hfb2z : f2.balance = 0 := by rw [hfb2, hB.1]; ring
        have hfp2z : f2.position = 0 := by
          rw [hfp2, hB.2, hB.1]; simp
        exact ⟨by rw [hfb1, hfb2z]; exact hb1, Or.inr ⟨hfb2z, hfp2z⟩⟩
      · by_cases hS1 : s = -1 ∧ 0 < e1.position
        · by_cases hS2 : s = -1 ∧ 0 < e2.position
          · -- both engines sell their whole position
            rcases hdisj with ⟨hiff, hle⟩ | ⟨_, hz⟩
            · obtain ⟨hent1, _⟩ := hl1 hS1.2
              obtain ⟨hent2, _⟩ := hl2 hS2.2
              obtain ⟨hfb1, hfp1⟩ :=
                runStep_sell_inv e1 f1 b s hA1 hS1 hent1.ne' hf1
              obtain ⟨hfb2, hfp2⟩ :=
                runStep_sell_inv e2 f2 b s hA2 hS2 hent2.ne' hf2
              constructor
              · have hmul : e2.position * b.close * (1 - e2.commission) ≤
                    e1.position * b.close * (1 - e1.commission) :=
                  mul_le_mul (mul_le_mul_of_nonneg_right hle hp.le)
                    (by linarith) h1c2 (mul_nonneg hp1 hp.le)
                rw [hfb1, hfb2]; linarith
              · left
                rw [hfp1, hfp2]
                exact ⟨Iff.rfl, le_refl 0⟩
            · exact absurd hz (ne_of_gt hS2.2)
          · -- the cheap engine sells, the expensive one is flat
            have hs1 : s = -1 := hS1.1
            have hp2z : e2.position = 0 := by
              by_contra h
              exact hS2 ⟨hs1, lt_of_le_of_ne hp2 (Ne.symm h)⟩
            have hB : e2.balance = 0 ∧ e2.position = 0 := by
              rcases hdisj with ⟨hiff, _⟩ | hB
              · exact absurd (hiff.mp hp2z) (ne_of_gt hS1.2)
              · exact hB
            obtain ⟨hent1, _⟩ := hl1 hS1.2
            obtain ⟨hfb1, hfp1⟩ :=
              runStep_sell_inv e1 f1 b s hA1 hS1 hent1.ne' hf1
            obtain ⟨hfb2, hfp2⟩ := runStep_hold_inv e2 f2 b s hA2 hS2 hf2
            have hrev : 0 ≤ e1.position * b.close * (1 - e1.commission) :=
              mul_nonneg (mul_nonneg hp1 hp.le) h1c1
            constructor
            · rw [hfb1, hfb2, hB.1]; linarith
            · right
              exact ⟨by rw [hfb2, hB.1], by rw [hfp2, hB.2]⟩
        · by_cases hS2 : s = -1 ∧ 0 < e2.position
          · -- the expensive engine long while the cheap one flat: impossible
            have hs1 : s = -1 := hS2.1
            have hp1z : e1.position = 0 := by
              by_contra h
              exact hS1 ⟨hs1, lt_of_le_of_ne hp1 (Ne.symm h)⟩
            rcases hdisj with ⟨hiff, _⟩ | ⟨_, hz⟩
            · exact absurd (hiff.mpr hp1z) (ne_of_gt hS2.2)
            · exact absurd hz (ne_of_gt hS2.2)
          · -- both engines hold
            obtain ⟨hfb1, hfp1⟩ := runStep_hold_inv e1 f1 b s hA1 hS1 hf1
            obtain ⟨hfb2, hfp2⟩ := runStep_hold_inv e2 f2 b s hA2 hS2 hf2
            refine ⟨by rw [hfb1, hfb2]; exact hbal, ?_⟩
            rcases hdisj with ⟨hiff, hle⟩ | ⟨hz1, hz2⟩
            · left
              rw [hfp1, hfp2]
              exact ⟨hiff, hle⟩
            · right
              exact ⟨by rw [hfb2]; exact hz1, by rw [hfp2]; exact hz2⟩
  refine ⟨f1, f2, hf1, hf2, ?_⟩
  unfold pairInv
  exact ⟨hgf1, hgf2, by rw [hcf1]; exact hc1n,
    by rw [hcf1, hcf2]; exact hc12, by rw [hcf2]; exact hc2v,
    key.1, key.2⟩

/-- Replaying the same bars and signals with a higher commission, the
coupling holds at every step. -/
theorem run_backtest_pair : ∀ (bars : List (Bar × ℤ))
    (e1 e2 : BacktestEngine), pairInv e1 e2 →
    (∀ p ∈ bars, 0 < p.1.close) →
    ∃ f1 f2, run_backtest e1 bars = some f1 ∧
      run_backtest e2 bars = some f2 ∧ pairInv f1 f2 := by
  intro bars
  induction bars with
  | nil => intro e1 e2 hI _; exact ⟨e1, e2, rfl, rfl, hI⟩
  | cons p rest ih =>
    intro e1 e2 hI hp
    obtain ⟨b, s⟩ := p
    obtain ⟨f1, f2, h1, h2, hI2⟩ :=
      runStep_pair e1 e2 b s (hp (b, s) (by simp)) hI
    obtain ⟨g1, g2, hr1, hr2, hI3⟩ :=
      ih f1 f2 hI2 (fun q hq => hp q (by simp [hq]))
    exact ⟨g1, g2, by simp only [run_backtest, h1]; exact hr1,
      by simp only [run_backtest, h2]; exact hr2, hI3⟩

/-- C2 (amended): over bars with positive closes and from a positive
initial balance, replaying the identical signal sequence with
commissions `0 <= cLow < cHigh` such that `0.95 * (1 + cHigh) <= 1`
(so the 95%-sizing buys are never cost-rejected), the final balance
under the higher commission never exceeds the one under the lower. -/
theorem c2_commission_monotone (b0 cLow cHigh : ℚ) (bars : List (Bar × ℤ))
    (hb0 : 0 < b0) (hc1 : 0 ≤ cLow) (hlt : cLow < cHigh)
    (hc2v : (19 / 20) * (1 + cHigh) ≤ 1)
    (hp : ∀ p ∈ bars, 0 < p.1.close) :
    ∃ f1 f2, run_backtest (initEngine b0 cLow) bars = some f1 ∧
      run_backtest (initEngine b0 cHigh) bars = some f2 ∧
      f2.balance ≤ f1.balance := by
  have hI : pairInv (initEngine b0 cLow) (initEngine b0 cHigh) := by
    unfold pairInv
    refine ⟨goodState_init _ _ hb0.le, goodState_init _ _ hb0.le,
      by simpa [initEngine] using hc1, by simpa [initEngine] using hlt.le,
      by simpa [initEngine] using hc2v, by simp [initEngine], ?_⟩
    left
    exact ⟨by simp [initEngine], by simp [initEngine]⟩
  obtain ⟨f1, f2, h1, h2, hI2⟩ := run_backtest_pair bars _ _ hI hp
  refine ⟨f1, f2, h1, h2, ?_⟩
  unfold pairInv at hI2
  exact hI2.2.2.2.2.2.1

/-- Witness for C2 (amended) at a concrete input: commissions 0 and
1/19 on a buy-then-sell sequence. -/
theorem c2_commission_monotone_witness :
    ∃ f1 f2, run_backtest (initEngine 10000 0)
        [(⟨0, 100⟩, 1), (⟨1, 90⟩, -1)] = some f1 ∧
      run_backtest (initEngine 10000 (1 / 19))
        [(⟨0, 100⟩, 1), (⟨1, 90⟩, -1)] = some f2 ∧
      f2.balance ≤ f1.balance :=
  c2_commission_monotone 10000 0 (1 / 19) [(⟨0, 100⟩, 1), (⟨1, 90⟩, -1)]
    (by norm_num) (by norm_num) (by norm_num) (by norm_num)
    (by intro p hp; fin_cases hp <;> norm_num)

lemma foldl_min_le_init : ∀ (xs : List ℚ) (x : ℚ), xs.foldl min x ≤ x := by
  intro xs
  induction xs with
  | nil => intro x; simp
  | cons y ys ih =>
    intro x
    exact le_trans (ih (min x y)) (min_le_left x y)

lemma foldl_min_le_mem : ∀ (xs : List ℚ) (x y : ℚ), y ∈ xs →
    xs.foldl min x ≤ y := by
  intro xs
  induction xs with
  | nil => intro x y h; simp at h
  | cons z zs ih =>
    intro x y h
    rcases List.mem_cons.mp h with rfl | h2
    · exact le_trans (foldl_min_le_init zs (min x y)) (min_le_right x y)
    · exact ih (min x z) y h2

lemma foldl_min_mem : ∀ (xs : List ℚ) (x : ℚ),
    xs.foldl min x = x ∨ xs.foldl min x ∈ xs := by
  intro xs
  induction xs with
  | nil => intro x; left; rfl
  | cons y ys ih =>
    intro x
    rcases ih (min x y) with h | h
    · rcases min_choice x y with h2 | h2
      · left; rw [List.foldl_cons, h, h2]
      · right; rw [List.foldl_cons, h, h2]; exact List.mem_cons_self y ys
    · right; exact List.mem_cons_of_mem y h

lemma listMin_mem (l : List ℚ) (h : l ≠ []) : listMin l ∈ l := by
  cases l with
  | nil => exact absurd rfl h
  | cons x xs =>
    rcases foldl_min_mem xs x with h2 | h2
    · simp only [listMin, h2]; exact List.mem_cons_self x xs
    · simp only [listMin]; exact List.mem_cons_of_mem x h2

lemma listMin_le (l : List ℚ) (y : ℚ) (h : y ∈ l) : listMin l ≤ y := by
  cases l with
  | nil => simp at h
  | cons x xs =>
    rcases List.mem_cons.mp h with rfl | h2
    · exact foldl_min_le_init xs y
    · exact foldl_min_le_mem xs x y h2

lemma foldl_max_init_le : ∀ (xs : List ℚ) (x : ℚ), x ≤ xs.foldl max x := by
  intro xs
  induction xs with
  | nil => intro x; simp
  | cons y ys ih =>
    intro x
    exact le_trans (le_max_left x y) (ih (max x y))

lemma foldl_max_mem_le : ∀ (xs : List ℚ) (x y : ℚ), y ∈ xs →
    y ≤ xs.foldl max x := by
  intro xs
  induction xs with
  | nil => intro x y h; simp at h
  | cons z zs ih =>
    intro x y h
    rcases List.mem_cons.mp h with rfl | h2
    · exact le_trans (le_max_right x y) (foldl_max_init_le zs (max x y))
    · exact ih (max x z) y h2

lemma foldl_max_mem : ∀ (xs : List ℚ) (x : ℚ),
    xs.foldl max x = x ∨ xs.foldl max x ∈ xs := by
  intro xs
  induction xs with
  | nil => intro x; left; rfl
  | cons y ys ih =>
    intro x
    rcases ih (max x y) with h | h
    · rcases max_choice x y with h2 | h2
      · left; rw [List.foldl_cons, h, h2]
      · right; rw [List.foldl_cons, h, h2]; exact List.mem_cons_self y ys
    · right; exact List.mem_cons_of_mem y h

lemma listMax_mem (l : List ℚ) (h : l ≠ []) : listMax l ∈ l := by
  cases l with
  | nil => exact absurd rfl h
  | cons x xs =>
    rcases foldl_max_mem xs x with h2 | h2
    · simp only [listMax, h2]; exact List.mem_cons_self x xs
    · simp only [listMax]; exact List.mem_cons_of_mem x h2

lemma le_listMax (l : List ℚ) (y : ℚ) (h : y ∈ l) : y ≤ listMax l := by
  cases l with
  | nil => simp at h
  | cons x xs =>
    rcases List.mem_cons.mp h with rfl | h2
    · exact foldl_max_init_le xs y
    · exact foldl_max_mem_le xs x y h2

lemma listMax_append_singleton (l : List ℚ) (a : ℚ) (h : l ≠ []) :
    listMax (l ++ [a]) = max (listMax l) a := by
  cases l with
  | nil => exact absurd rfl h
  | cons x xs => simp [listMax, List.foldl_append]

lemma findIdx_append_left (p : ℚ → Bool) : ∀ (l1 l2 : List ℚ),
    l1.findIdx p < l1.length → (l1 ++ l2).findIdx p = l1.findIdx p := by
  intro l1
  induction l1 with
  | nil => intro l2 h; simp at h
  | cons a l ih =>
    intro l2 h
    rw [List.cons_append, List.findIdx_cons, List.findIdx_cons]
    cases hpa : p a with
    | true => simp
    | false =>
      simp only [cond_false]
      rw [List.findIdx_cons, hpa] at h
      simp only [cond_false, List.length_cons, Nat.add_lt_add_iff_right] at h
      rw [ih l2 h]

lemma findIdx_get?_prop (p : ℚ → Bool) : ∀ (l : List ℚ),
    l.findIdx p < l.length →
    ∃ a, l.get? (l.findIdx p) = some a ∧ p a = true := by
  intro l
  induction l with
  | nil => intro h; simp at h
  | cons x xs ih =>
    intro h
    rw [List.findIdx_cons]
    cases hx : p x with
    | false =>
      simp only [cond_false]
      rw [List.findIdx_cons, hx] at h
      simp only [cond_false, List.length_cons, Nat.add_lt_add_iff_right] at h
      obtain ⟨a, ha, hpa⟩ := ih h
      exact ⟨a, by simpa using ha, hpa⟩
    | true =>
      simp only [cond_true]
      exact ⟨x, rfl, hx⟩

lemma runningMaxAux_length : ∀ (xs : List ℚ) (m : ℚ),
    (runningMaxAux m xs).length = xs.length := by
  intro xs
  induction xs with
  | nil => intro m; rfl
  | cons x xs ih => intro m; simp [runningMaxAux, ih]

lemma runningMax_length (l : List ℚ) : (runningMax l).length = l.length := by
  cases l with
  | nil => rfl
  | cons x xs => simp [runningMax, runningMaxAux_length]

lemma runningMaxAux_get?_zero (m : ℚ) (xs : List ℚ) :
    (runningMaxAux m xs).get? 0 = (xs.get? 0).map (max m) := by
  cases xs <;> simp [runningMaxAux]

lemma runningMaxAux_get?_succ : ∀ (xs : List ℚ) (m : ℚ) (j : ℕ),
    (runningMaxAux m xs).get? (j + 1) =
      ((runningMaxAux m xs).get? j).bind
        fun p => (xs.get? (j + 1)).map (max p) := by
  intro xs
  induction xs with
  | nil => intro m j; simp [runningMaxAux]
  | cons x xs ih =>
    intro m j
    cases j with
    | zero =>
      simp only [runningMaxAux, List.get?_cons_succ, List.get?_cons_zero,
        Option.some_bind]
      exact runningMaxAux_get?_zero (max m x) xs
    | succ j =>
      simp only [runningMaxAux, List.get?_cons_succ]
      exact ih (max m x) j

lemma runningMax_get?_succ (l : List ℚ) (j : ℕ) :
    (runningMax l).get? (j + 1) =
      ((runningMax l).get? j).bind fun m => (l.get? (j + 1)).map (max m) := by
  cases l with
  | nil => simp [runningMax]
  | cons x xs =>
    cases j with
    | zero =>
      simp only [runningMax, List.get?_cons_succ, List.get?_cons_zero,
        Option.some_bind]
      exact runningMaxAux_get?_zero x xs
    | succ j =>
      simp only [runningMax, List.get?_cons_succ]
      exact runningMaxAux_get?_succ xs x j

lemma ddOf_length (eq : List EquityPoint) : (ddOf eq).length = eq.length := by
  simp [ddOf, valuesOf, peakOf, List.length_zipWith, runningMax_length]

lemma peakOf_length (eq : List EquityPoint) :
    (peakOf eq).length = eq.length := by
  simp [peakOf, valuesOf, runningMax_length]

lemma ddOf_get?_zero (eq : List EquityPoint) (h : eq ≠ []) :
    (ddOf eq).get? 0 = some 0 := by
  cases eq with
  | nil => exact absurd rfl h
  | cons a l =>
    simp [ddOf, valuesOf, peakOf, runningMax]

lemma idxmin_eq (l : List ℚ) :
    idxmin l = List.findIdx (fun a => decide (a ≤ listMin l)) l := rfl

/-- Core characterization of `calculate_max_drawdown` on curves whose
minimum drawdown is strictly negative: the call succeeds, returns the
minimum drawdown (and its percent form), the trough's timestamp as end,
and as start the timestamp of the earliest index attaining the maximum
running-peak value at or before the trough. -/
theorem maxdd_spec (eq : List EquityPoint) (hm : listMin (ddOf eq) < 0) :
    calculate_max_drawdown eq = some (listMin (ddOf eq),
      listMin (ddOf eq) * 100, some (tsAt eq (specStartEarliest eq)),
      some (tsAt eq (troughIdx eq))) := by
  have hne : eq ≠ [] := by
    intro h
    rw [h] at hm
    simp [ddOf, valuesOf, peakOf, runningMax, listMin] at hm
  have hDne : ddOf eq ≠ [] := by
    intro h
    rw [h] at hm
    simp [listMin] at hm
  have hmem : listMin (ddOf eq) ∈ ddOf eq := listMin_mem _ hDne
  have hτlt : idxmin (ddOf eq) < (ddOf eq).length :=
    List.findIdx_lt_length_of_exists ⟨listMin (ddOf eq), hmem, by simp⟩
  have hd0 : (ddOf eq).get? 0 = some 0 := ddOf_get?_zero eq hne
  -- the trough cannot be index 0 because the drawdown there is 0
  have hτpos : 1 ≤ idxmin (ddOf eq) := by
    by_contra hcon
    have hτ0 : idxmin (ddOf eq) = 0 := by omega
    obtain ⟨a, ha, hpa⟩ := findIdx_get?_prop
      (fun a => decide (a ≤ listMin (ddOf eq))) (ddOf eq) hτlt
    rw [← idxmin_eq, hτ0] at ha
    obtain rfl : (0 : ℚ) = a := Option.some.inj (hd0.symm.trans ha)
    simp only [decide_eq_true_eq] at hpa
    linarith
  -- the element at the trough is the minimum
  have hτval : (ddOf eq).get? (idxmin (ddOf eq)) =
      some (listMin (ddOf eq)) := by
    obtain ⟨a, ha, hpa⟩ := findIdx_get?_prop
      (fun a => decide (a ≤ listMin (ddOf eq))) (ddOf eq) hτlt
    rw [← idxmin_eq] at ha
    have hage : listMin (ddOf eq) ≤ a := listMin_le _ a (List.get?_mem ha)
    simp only [decide_eq_true_eq] at hpa
    rw [ha, le_antisymm hpa hage]
  -- peak and value at the trough
  have hτeq : idxmin (ddOf eq) < eq.length := by
    rw [ddOf_length] at hτlt; exact hτlt
  have hτP : idxmin (ddOf eq) < (peakOf eq).length := by
    rw [peakOf_length]; exact hτeq
  have hτV : idxmin (ddOf eq) < (valuesOf eq).length := by
    simpa [valuesOf] using hτeq
  obtain ⟨aτ, haτ⟩ : ∃ a, (peakOf eq).get? (idxmin (ddOf eq)) = some a := by
    rw [List.get?_eq_get hτP]; exact ⟨_, rfl⟩
  obtain ⟨vτ, hvτ⟩ : ∃ v, (valuesOf eq).get? (idxmin (ddOf eq)) = some v := by
    rw [List.get?_eq_get hτV]; exact ⟨_, rfl⟩
  obtain ⟨pm, hpm⟩ : ∃ m, (peakOf eq).get? (idxmin (ddOf eq) - 1) = some m := by
    rw [List.get?_eq_get (by omega : idxmin (ddOf eq) - 1 < (peakOf eq).length)]
    exact ⟨_, rfl⟩
  have hsucc := runningMax_get?_succ (valuesOf eq) (idxmin (ddOf eq) - 1)
  rw [show idxmin (ddOf eq) - 1 + 1 = idxmin (ddOf eq) by omega] at hsucc
  have hPsucc : (peakOf eq).get? (idxmin (ddOf eq)) =
      ((peakOf eq).get? (idxmin (ddOf eq) - 1)).bind
        fun m => ((valuesOf eq).get? (idxmin (ddOf eq))).map (max m) := hsucc
  rw [haτ, hpm, hvτ] at hPsucc
  simp only [Option.some_bind, Option.map_some] at hPsucc
  obtain rfl : aτ = max pm vτ := Option.some.inj hPsucc
  -- the drawdown at the trough in terms of value and peak
  have hzip : (ddOf eq).get? (idxmin (ddOf eq)) =
      some ((vτ - max pm vτ) / max pm vτ) := by
    show (List.zipWith (fun v p => (v - p) / p) (valuesOf eq)
      (peakOf eq)).get? (idxmin (ddOf eq)) = _
    rw [List.get?_zipWith, hvτ, haτ]
  have hminval : listMin (ddOf eq) = (vτ - max pm vτ) / max pm vτ :=
    Option.some.inj (hτval.symm.trans hzip)
  have hdd : (vτ - max pm vτ) / max pm vτ < 0 := hminval ▸ hm
  -- the peak at the trough is positive and above the value there
  have haux : 0 < max pm vτ ∧ vτ < max pm vτ := by
    rcases lt_trichotomy (max pm vτ) 0 with h | h | h
    · exfalso
      have hva : vτ - max pm vτ ≤ 0 := by
        have := le_max_right pm vτ; linarith
      have hnn := div_nonneg (neg_nonneg.mpr hva) (neg_nonneg.mpr h.le)
      rw [neg_div_neg_eq] at hnn
      linarith
    · exfalso
      rw [h, div_zero] at hdd
      linarith
    · refine ⟨h, ?_⟩
      by_contra hcon
      have := div_nonneg (by linarith : (0 : ℚ) ≤ vτ - max pm vτ) h.le
      linarith
  have hapm : max pm vτ = pm := by
    rcases max_choice pm vτ with h | h
    · exact h
    · exfalso; rw [h] at haux; exact absurd haux.2 (lt_irrefl vτ)
  -- the prefix of the peak series before the trough
  have hprelen : ((peakOf eq).take (idxmin (ddOf eq))).length =
      idxmin (ddOf eq) := by
    rw [List.length_take]
    have : idxmin (ddOf eq) ≤ (peakOf eq).length := hτP.le
    omega
  have hprene : (peakOf eq).take (idxmin (ddOf eq)) ≠ [] := by
    intro h
    rw [h] at hprelen
    simp at hprelen
    omega
  have hpm_in : pm ∈ (peakOf eq).take (idxmin (ddOf eq)) := by
    apply List.get?_mem
    rw [List.get?_take (by omega : idxmin (ddOf eq) - 1 < idxmin (ddOf eq))]
    exact hpm
  have haτ_le : max pm vτ ≤ listMax ((peakOf eq).take (idxmin (ddOf eq))) := by
    rw [hapm]
    exact le_listMax _ pm hpm_in
  have htake : (peakOf eq).take (idxmin (ddOf eq) + 1) =
      (peakOf eq).take (idxmin (ddOf eq)) ++ [max pm vτ] := by
    rw [List.take_succ]
    congr 1
    rw [← List.get?_eq_getElem?, haτ]
    rfl
  have hidx : idxmax ((peakOf eq).take (idxmin (ddOf eq) + 1)) =
      idxmax ((peakOf eq).take (idxmin (ddOf eq))) := by
    unfold idxmax
    rw [htake]
    have hpe : (fun a => decide
        (listMax ((peakOf eq).take (idxmin (ddOf eq)) ++ [max pm vτ]) ≤ a)) =
        (fun a => decide
          (listMax ((peakOf eq).take (idxmin (ddOf eq))) ≤ a)) := by
      funext a
      rw [listMax_append_singleton _ _ hprene, max_eq_left haτ_le]
    rw [hpe]
    apply findIdx_append_left
    apply List.findIdx_lt_length_of_exists
    exact ⟨listMax _, listMax_mem _ hprene, by simp⟩
  -- assemble the result
  simp only [calculate_max_drawdown]
  rw [if_neg hne, if_neg hprene]
  simp only [specStartEarliest, troughIdx]
  rw [hidx]

/-- C4 (amended): on every equity curve whose minimum drawdown is
strictly negative, `calculate_max_drawdown` returns as start the
timestamp of the EARLIEST index attaining the maximum running-peak
value at or before the trough (pandas `idxmax` takes the first
occurrence), and as end the trough's timestamp; when the minimum
drawdown is 0 the function instead raises from `idxmax` on an empty
prefix. -/
theorem c4_drawdown_boundaries (eq : List EquityPoint)
    (hm : listMin (ddOf eq) < 0) :
    calculate_max_drawdown eq = some (listMin (ddOf eq),
      listMin (ddOf eq) * 100, some (tsAt eq (specStartEarliest eq)),
      some (tsAt eq (troughIdx eq))) :=
  maxdd_spec eq hm

/-- Witness for C4 (amended) at a concrete input: curve `[100, 90]`. -/
theorem c4_drawdown_boundaries_witness :
    calculate_max_drawdown [⟨0, 100, 100⟩, ⟨1, 90, 90⟩] =
      some (-(1 / 10), -10, some 0, some 1) := by
  have h := c4_drawdown_boundaries [⟨0, 100, 100⟩, ⟨1, 90, 90⟩]
    (by norm_num [ddOf, valuesOf, peakOf, runningMax, runningMaxAux, listMin])
  rw [h]
  norm_num [ddOf, valuesOf, peakOf, runningMax, runningMaxAux, listMin,
    listMax, specStartEarliest, troughIdx, idxmin, idxmax, tsAt,
    List.findIdx_cons, Bool.cond_decide]

/-- C9 (amended): `calculate_max_drawdown` returns the minimum of
`drawdown[i] = (value[i] - peak[i]) / peak[i]` as its first component
whenever that minimum is strictly negative (otherwise it raises); on
`[100, 90, 80, 95]` it returns −20% with peak index 0 (timestamp 0) and
trough index 2 (timestamp 2); on the empty curve it returns
`(0, 0, None, None)`. -/
theorem c9_min_drawdown :
    (∀ eq : List EquityPoint, listMin (ddOf eq) < 0 →
      (calculate_max_drawdown eq).map (fun r => r.1) =
        some (listMin (ddOf eq))) ∧
    calculate_max_drawdown
        [⟨0, 100, 100⟩, ⟨1, 90, 90⟩, ⟨2, 80, 80⟩, ⟨3, 95, 95⟩] =
      some (-(1 / 5), -20, some 0, some 2) ∧
    calculate_max_drawdown ([] : List EquityPoint) =
      some (0, 0, none, none) := by
  refine ⟨?_, ?_, ?_⟩
  · intro eq hm
    rw [maxdd_spec eq hm]
    rfl
  · norm_num [calculate_max_drawdown, ddOf, peakOf, valuesOf, runningMax,
      runningMaxAux, listMin, listMax, idxmin, idxmax, troughIdx, tsAt,
      List.findIdx_cons, Bool.cond_decide]
    simp
  · simp [calculate_max_drawdown]

/-- Witness for C9's universally quantified part at curve `[100, 50]`. -/
theorem c9_min_drawdown_witness :
    (calculate_max_drawdown [⟨0, 100, 100⟩, ⟨1, 50, 50⟩]).map
      (fun r => r.1) = some (-(1 / 2)) := by
  have h := c9_min_drawdown.1 [⟨0, 100, 100⟩, ⟨1, 50, 50⟩]
    (by norm_num [ddOf, valuesOf, peakOf, runningMax, runningMaxAux, listMin])
  rw [h]
  norm_num [ddOf, valuesOf, peakOf, runningMax, runningMaxAux, listMin]

lemma ddScanAux_none_false (i : ℕ) (rest : List Bool) :
    ddScanAux i none (false :: rest) = ddScanAux (i + 1) none rest := rfl

lemma ddScanAux_none_true (i : ℕ) (rest : List Bool) :
    ddScanAux i none (true :: rest) = ddScanAux (i + 1) (some i) rest := rfl

lemma ddScanAux_some_true (i s : ℕ) (rest : List Bool) :
    ddScanAux i (some s) (true :: rest) =
      ddScanAux (i + 1) (some s) rest := rfl

lemma ddScanAux_some_false (i s : ℕ) (rest : List Bool) :
    ddScanAux i (some s) (false :: rest) =
      (s, i - 1) :: ddScanAux (i + 1) none rest := rfl

lemma dropWhile_eq_drop_takeWhile (p : Bool → Bool) : ∀ l : List Bool,
    l.dropWhile p = l.drop (l.takeWhile p).length := by
  intro l
  induction l with
  | nil => rfl
  | cons x xs ih =>
    rw [List.dropWhile_cons, List.takeWhile_cons]
    by_cases hx : p x = true
    · rw [if_pos hx, if_pos hx]
      simp [ih]
    · rw [if_neg hx, if_neg hx]
      rfl

lemma dropWhile_head_false (p : Bool → Bool) : ∀ (l : List Bool)
    (b : Bool) (r : List Bool), l.dropWhile p = b :: r → p b = false := by
  intro l
  induction l with
  | nil => intro b r h; simp at h
  | cons x xs ih =>
    intro b r h
    rw [List.dropWhile_cons] at h
    by_cases hx : p x = true
    · rw [if_pos hx] at h
      exact ih b r h
    · rw [if_neg hx] at h
      injection h with h1 h2
      rw [← h1]
      exact Bool.eq_false_iff.mpr hx

/-- Characterization of the scan when a run is open with start `s`: it
closes the run at the first `false` and continues, or emits nothing if
the series ends while still in drawdown. -/
lemma ddScanAux_some_eq : ∀ (l : List Bool) (i s : ℕ),
    ddScanAux i (some s) l =
      if l.dropWhile (fun x => x) = [] then []
      else (s, i + (l.takeWhile (fun x => x)).length - 1) ::
        ddScanAux (i + (l.takeWhile (fun x => x)).length + 1) none
          (l.dropWhile (fun x => x)).tail := by
  intro l
  induction l with
  | nil => intro i s; simp [ddScanAux]
  | cons b rest ih =>
    intro i s
    cases b with
    | false =>
      have hdw : (false :: rest).dropWhile (fun x => x) = false :: rest := by
        simp [List.dropWhile_cons]
      have htw : (false :: rest).takeWhile (fun x => x) = [] := by
        simp [List.takeWhile_cons]
      rw [ddScanAux_some_false, hdw, htw,
        if_neg (List.cons_ne_nil false rest)]
      simp
    | true =>
      have hdw : (true :: rest).dropWhile (fun x => x) =
          rest.dropWhile (fun x => x) := by
        simp [List.dropWhile_cons]
      have htw : (true :: rest).takeWhile (fun x => x) =
          true :: rest.takeWhile (fun x => x) := by
        simp [List.takeWhile_cons]
      rw [ddScanAux_some_true, ih (i + 1) s, hdw, htw]
      simp only [List.length_cons]
      by_cases hd : rest.dropWhile (fun x => x) = []
      · rw [if_pos hd, if_pos hd]
      · rw [if_neg hd, if_neg hd]
        have h1 : i + 1 + (rest.takeWhile (fun x => x)).length - 1 =
            i + ((rest.takeWhile (fun x => x)).length + 1) - 1 := by omega
        have h2 : i + 1 + (rest.takeWhile (fun x => x)).length + 1 =
            i + ((rest.takeWhile (fun x => x)).length + 1) + 1 := by omega
        rw [h1, h2]

lemma closedRunsAux_false (i : ℕ) (rest : List Bool) :
    closedRunsAux i (false :: rest) = closedRunsAux (i + 1) rest := by
  simp [closedRunsAux]

/-- The imperative left-to-right scan of `drawdown_analysis` emits
exactly the closed maximal runs of `true`, in order. -/
lemma scan_eq_runs : ∀ (n : ℕ) (l : List Bool), l.length ≤ n → ∀ i,
    ddScanAux i none l = closedRunsAux i l := by
  intro n
  induction n with
  | zero =>
    intro l hl i
    have : l = [] := List.eq_nil_of_length_eq_zero (by omega)
    subst this
    simp [ddScanAux, closedRunsAux]
  | succ n ih =>
    intro l hl i
    cases l with
    | nil => simp [ddScanAux, closedRunsAux]
    | cons b rest =>
      cases b with
      | false =>
        rw [ddScanAux_none_false, closedRunsAux_false]
        exact ih rest (by simp only [List.length_cons] at hl; omega) (i + 1)
      | true =>
        rw [ddScanAux_none_true, ddScanAux_some_eq]
        by_cases hd : rest.dropWhile (fun x => x) = []
        · rw [if_pos hd]
          have hdk : rest.drop ((rest.takeWhile (fun x => x)).length) = [] := by
            rw [← dropWhile_eq_drop_takeWhile]; exact hd
          simp [closedRunsAux, hdk]
        · rw [if_neg hd]
          obtain ⟨b2, r2, hbr⟩ : ∃ b2 r2,
              rest.dropWhile (fun x => x) = b2 :: r2 := by
            cases hcase : rest.dropWhile (fun x => x) with
            | nil => exact absurd hcase hd
            | cons x xs => exact ⟨x, xs, rfl⟩
          have hb2 : b2 = false := dropWhile_head_false _ rest b2 r2 hbr
          subst hb2
          have hdk : rest.drop ((rest.takeWhile (fun x => x)).length) =
              false :: r2 := by
            rw [← dropWhile_eq_drop_takeWhile]; exact hbr
          have hr2len : r2.length + 1 + (rest.takeWhile (fun x => x)).length =
              rest.length := by
            have := congrArg List.length hdk
            simp [List.length_drop] at this
            have htw : (rest.takeWhile (fun x => x)).length ≤ rest.length :=
              (List.takeWhile_sublist _).length_le
            omega
          have hstep : closedRunsAux i (true :: rest) =
              (i, i + (rest.takeWhile (fun x => x)).length) ::
                closedRunsAux (i + (rest.takeWhile (fun x => x)).length + 1 + 1)
                  r2 := by
            simp only [closedRunsAux]
            rw [hdk, if_neg (List.cons_ne_nil false r2), closedRunsAux_false]
          rw [hstep, hbr]
          simp only [List.tail_cons]
          have hlen2 : r2.length ≤ n := by
            simp only [List.length_cons] at hl
            omega
          have h1 : i + 1 + (rest.takeWhile (fun x => x)).length - 1 =
              i + (rest.takeWhile (fun x => x)).length := by omega
          have h2 : i + 1 + (rest.takeWhile (fun x => x)).length + 1 =
              i + (rest.takeWhile (fun x => x)).length + 1 + 1 := by omega
          rw [h1, h2, ih r2 hlen2
            (i + (rest.takeWhile (fun x => x)).length + 1 + 1)]

/-- C8: `drawdown_analysis` emits exactly one episode per closed run of
consecutive points whose percent drawdown is below −0.1, each episode
recording the run's first-bar timestamp, last-bar timestamp, the
timestamp difference in days, the minimum drawdown within the run, and
a recovery timestamp equal to the end timestamp; a run still in
drawdown at the final equity point is never emitted.  Concretely: a
single closed one-bar dip of −5% yields exactly that episode, and a
curve that ends while still in drawdown yields no episode. -/
theorem c8_drawdown_episodes :
    (∀ eq : List EquityPoint, drawdown_analysis eq =
      (closedRunsAux 0 (inDrawdown eq)).map (mkEpisode eq)) ∧
    drawdown_analysis
        [⟨0, 100, 100⟩, ⟨1, 95, 95⟩, ⟨2, 100, 100⟩, ⟨3, 100, 100⟩] =
      [⟨1, 1, 0, -5, 1⟩] ∧
    drawdown_analysis [⟨0, 100, 100⟩, ⟨1, 90, 90⟩, ⟨2, 80, 80⟩] = [] := by
  refine ⟨?_, ?_, ?_⟩
  · intro eq
    unfold drawdown_analysis
    rw [scan_eq_runs (inDrawdown eq).length (inDrawdown eq) le_rfl 0]
  · norm_num [drawdown_analysis, inDrawdown, ddPctOf, valuesOf, peakOf,
      runningMax, runningMaxAux, ddScanAux, mkEpisode, tsAt, listMin,
      decide_eq_true_eq]
    rfl
  · norm_num [drawdown_analysis, inDrawdown, ddPctOf, valuesOf, peakOf,
      runningMax, runningMaxAux, ddScanAux, mkEpisode, tsAt, listMin,
      decide_eq_true_eq]

/-- C6: with balance 10000, commission 0, closes `[100, 110, 90, 120]` and
signals `[Buy, Hold, Sell, Hold]`, the engine buys 95 units at index 0
costing 9500 (balance 500), sells 95 units at 90 at index 2 for revenue
8550 (balance 9050, profit −950), ends with a final equity point of
9050, a trade ledger of length 2 and a win rate of 0%. -/
theorem c6_end_to_end :
    ((run_backtest (initEngine 10000 0)
        [(⟨0, 100⟩, 1), (⟨1, 110⟩, 0), (⟨2, 90⟩, -1), (⟨3, 120⟩, 0)]).map
      fun e =>
        (e.trades, (e.equity_curve.map EquityPoint.portfolio_value).getLast?,
          e.trades.length, e.balance, e.position)) =
      some ([Trade.buyT 0 100 95 9500 500,
             Trade.sellT 2 90 95 8550 (-950) (-10) 9050],
            some 9050, 2, 9050, 0) ∧
    ((run_backtest (initEngine 10000 0)
        [(⟨0, 100⟩, 1), (⟨1, 110⟩, 0), (⟨2, 90⟩, -1), (⟨3, 120⟩, 0)]).bind
      fun e => (get_performance_metrics e).map Metrics.win_rate) = some 0 := by
  norm_num [run_backtest, runStep, buy, sell, recordEquity, get_portfolio_value,
    initEngine, get_performance_metrics, listMean, listMin, listMax,
    Trade.isSell, Trade.profit, Trade.price, Trade.profit_pct, Option.bind]
  exact ⟨_, ⟨by simp, rfl⟩, rfl⟩

/-- C3 (evaluation at the failing inputs): the constructor silently
accepts a negative initial balance and a commission outside `[0, 1)`,
`run_backtest` over an empty bar series returns without any error, and
a series with non-monotonic timestamps is processed without complaint —
no fail-fast validation exists anywhere. -/
theorem c3_no_validation :
    initEngine (-5) (3 / 2) =
      { initial_balance := -5, balance := -5, commission := 3 / 2,
        position := 0, entry_price := 0, trades := [], equity_curve := [] } ∧
    run_backtest (initEngine (-5) (3 / 2)) [] = some (initEngine (-5) (3 / 2)) ∧
    (run_backtest (initEngine 10000 (1 / 1000))
        [(⟨5, 100⟩, 0), (⟨3, 100⟩, 0)]).isSome = true := by
  norm_num [run_backtest, runStep, buy, sell, recordEquity, get_portfolio_value,
    initEngine]

/-- C7 (evaluation at the failing input): on the 2-point constant equity
curve there is a single per-step return, whose sample standard deviation
(ddof = 1) is `NaN`; `NaN == 0` is false, so both ratios fall through to
a division by `NaN` and return `NaN` instead of 0.  With three or more
constant points the zero-variance guard does fire and 0 is returned. -/
theorem c7_nan_on_two_point_constant :
    calculate_sharpe_ratio [⟨0, 100, 100⟩, ⟨1, 100, 100⟩] (1 / 50) = .nan ∧
    calculate_sortino_ratio [⟨0, 100, 100⟩, ⟨1, 100, 100⟩] (1 / 50) = .nan ∧
    calculate_sharpe_ratio [⟨0, 100, 100⟩, ⟨1, 100, 100⟩, ⟨2, 100, 100⟩]
      (1 / 50) = .zero ∧
    calculate_sortino_ratio [⟨0, 100, 100⟩, ⟨1, 100, 100⟩, ⟨2, 100, 100⟩]
      (1 / 50) = .zero := by
  norm_num [calculate_sharpe_ratio, calculate_sortino_ratio, pctReturns,
    valuesOf, sampleVariance, listMean]

/-- C10: on a freshly constructed engine, `sell` with quantity 0 passes
the `quantity <= position` guard and then divides by `entry_price = 0`
while computing `profit_pct`, raising `ZeroDivisionError` (modelled as
`none`) instead of returning a boolean, whatever the price, timestamp
or construction parameters. -/
theorem c10_sell_zero_division (b0 c price : ℚ) (ts : ℤ) :
    sell (initEngine b0 c) price 0 ts = none := by
  simp [sell, initEngine]

/-- C2 (counterexample): commissions 0 and 1/10 are both valid fractions
in `[0, 1)`, yet on closes `[100, 90]` with signals `[Buy, Sell]` the
higher commission ends with balance 10000 (its buy order costs
`0.95·10000·1.1 > 10000` and is rejected, so it never trades) while
commission 0 ends with 9050: the higher commission yields a strictly
greater final balance, refuting the claim as stated. -/
theorem c2_counterexample :
    (0 : ℚ) ≤ 0 ∧ (0 : ℚ) < 1 / 10 ∧ (1 : ℚ) / 10 < 1 ∧
    (run_backtest (initEngine 10000 (1 / 10)) [(⟨0, 100⟩, 1), (⟨1, 90⟩, -1)]).map
        BacktestEngine.balance = some 10000 ∧
    (run_backtest (initEngine 10000 0) [(⟨0, 100⟩, 1), (⟨1, 90⟩, -1)]).map
        BacktestEngine.balance = some 9050 ∧
    (9050 : ℚ) < 10000 := by
  norm_num [run_backtest, runStep, buy, sell, recordEquity, get_portfolio_value,
    initEngine]

/-- C4 (counterexample): on equity values `[100, 100, 80]` the trough is
index 2 and the maximum running-peak value 100 is shared by indices 0, 1
(and 2); the code returns the timestamp of index 0 (pandas `idxmax`
takes the first occurrence over the prefix `peak[:2]`), while the
claimed latest tie-break selects index 2 (at-or-before reading) or
index 1 (strictly-before reading) — both different from 0. -/
theorem c4_counterexample :
    calculate_max_drawdown [⟨0, 100, 100⟩, ⟨1, 100, 100⟩, ⟨2, 80, 80⟩] =
      some (-(1 / 5), -20, some 0, some 2) ∧
    specStartLatest [⟨0, 100, 100⟩, ⟨1, 100, 100⟩, ⟨2, 80, 80⟩] = 2 ∧
    specStartLatestBefore [⟨0, 100, 100⟩, ⟨1, 100, 100⟩, ⟨2, 80, 80⟩] = 1 ∧
    tsAt [⟨0, 100, 100⟩, ⟨1, 100, 100⟩, ⟨2, 80, 80⟩] 2 = 2 ∧
    tsAt [⟨0, 100, 100⟩, ⟨1, 100, 100⟩, ⟨2, 80, 80⟩] 1 = 1 := by
  norm_num [calculate_max_drawdown, ddOf, peakOf, valuesOf, runningMax,
    runningMaxAux, listMin, listMax, idxmin, idxmax, idxmaxLast,
    specStartLatest, specStartLatestBefore, troughIdx, tsAt,
    List.findIdx_cons, Bool.cond_decide]
  simp

/-- C9 (counterexample): on the rising curve `[100, 110]` the minimum
drawdown is 0, first attained at index 0, so `peak[:0]` is empty and
`idxmax` raises `ValueError`: the function does not return the minimum
drawdown on every non-empty curve. -/
theorem c9_counterexample :
    calculate_max_drawdown [⟨0, 100, 100⟩, ⟨1, 110, 110⟩] = none ∧
    listMin (ddOf [⟨0, 100, 100⟩, ⟨1, 110, 110⟩]) = 0 := by
  constructor
  · norm_num [calculate_max_drawdown, ddOf, peakOf, valuesOf, runningMax,
      runningMaxAux, listMin, listMax, idxmin, idxmax, troughIdx, tsAt,
      List.findIdx_cons, Bool.cond_decide]
    simp
  · norm_num [ddOf, peakOf, valuesOf, runningMax, runningMaxAux, listMin]

end AlgoBot
